import Mathlib

/-!
Shallow embedding of the Predicator library (src/predicator/__init__.py):
the Recipe / Rule reflection wrappers and the Cookbook dependency
resolver, together with proofs of the specification claims.

Python values, callables and signatures are modelled explicitly; machine
details that no claim touches (keyword argument passing, module loading)
are out of scope, exactly as in the specification.
-/

namespace Predicator

/-- One parameter of a Python callable signature, in declared order:
a positional / positional-or-keyword parameter, a variadic `*args`
catch-all, a keyword-only parameter, or a variadic `**kwargs` catch-all. -/
inductive Param where
  | pos (pname : String)
  | varArgs
  | kwOnly (pname : String)
  | varKw
deriving DecidableEq, Repr

/-- A Python runtime value, as far as the claims need it: booleans are a
distinct type (`bool`), and non-boolean values such as integers, strings
and `None` exist so that truthiness is distinguishable from boolean-ness. -/
inductive PyValue where
  | bool (b : Bool)
  | int (n : Int)
  | str (s : String)
  | none
deriving DecidableEq, Repr

/-- The result of `inspect.getfullargspec`: the positional /
positional-or-keyword parameter names in declared order (`args`) and the
keyword-only parameter names in declared order (`kwonlyargs`).
Variadic catch-alls appear in neither list. -/
structure FullArgSpec where
  args : List String
  kwonlyargs : List String
deriving DecidableEq, Repr

/-- Positional / positional-or-keyword parameter names of a signature,
in declared order. -/
def posNames (sig : List Param) : List String :=
  sig.filterMap fun p =>
    match p with
    | .pos n => some n
    | _ => Option.none

/-- Keyword-only parameter names of a signature, in declared order. -/
def kwonlyNames (sig : List Param) : List String :=
  sig.filterMap fun p =>
    match p with
    | .kwOnly n => some n
    | _ => Option.none

/-- Semantics of `inspect.getfullargspec` on a declared signature. -/
def getfullargspec (sig : List Param) : FullArgSpec :=
  ⟨posNames sig, kwonlyNames sig⟩

/-- A Python object in the role of the `func` argument of
`Recipe.__init__`: a plain function (with its `__name__`, signature and
behaviour), a callable class instance (with its class name, the signature
of its bound `__call__`, and behaviour), a class object (callable in
Python, but rejected by `isclass`), or a non-callable object. Behaviour
is a function from the positional argument list to the returned value. -/
inductive PyUnit where
  | function (fname : String) (sig : List Param) (impl : List PyValue → PyValue)
  | callableInstance (clsName : String) (sig : List Param) (impl : List PyValue → PyValue)
  | pyClass (cname : String)
  | nonCallable (clsName : String)

/-- Python `callable(u)`: functions, callable instances and classes are
callable. -/
def PyUnit.isCallable : PyUnit → Bool
  | .function _ _ _ => true
  | .callableInstance _ _ _ => true
  | .pyClass _ => true
  | .nonCallable _ => false

/-- Python `inspect.isclass(u)`. -/
def PyUnit.isClass : PyUnit → Bool
  | .pyClass _ => true
  | _ => false

/-- Python `inspect.isfunction(u)`. -/
def PyUnit.isFunction : PyUnit → Bool
  | .function _ _ _ => true
  | _ => false

/-- The `__name__` attribute of the unit, for those units that have one
(functions; classes also do, though `Recipe.name` never reads it there). -/
def PyUnit.dunderName : PyUnit → String
  | .function f _ _ => f
  | .callableInstance c _ _ => c
  | .pyClass c => c
  | .nonCallable c => c

/-- The name of the class of the unit, Python `u.__class__.__name__`:
the class name for an instance, the metaclass name for a class object,
and the builtin type name for a plain function. -/
def PyUnit.clsDunderName : PyUnit → String
  | .function _ _ _ => "function"
  | .callableInstance c _ _ => c
  | .pyClass _ => "type"
  | .nonCallable c => c

/-- The declared signature that `getfullargspec` inspects; objects with
no signature contribute the empty one. -/
def PyUnit.sig : PyUnit → List Param
  | .function _ s _ => s
  | .callableInstance _ s _ => s
  | .pyClass _ => []
  | .nonCallable _ => []

/-- The behaviour of the unit when invoked on a positional argument list. -/
def PyUnit.impl : PyUnit → (List PyValue → PyValue)
  | .function _ _ f => f
  | .callableInstance _ _ f => f
  | .pyClass _ => fun _ => PyValue.none
  | .nonCallable _ => fun _ => PyValue.none

/-- The errors the library raises. `invalidDefinition` is the
`AssertionError` of `Recipe.__init__`, `invalidResult` the
`AssertionError` of `Rule.__call__` (carrying the offending value),
`recipeNotFound` the `ValueError` of `Cookbook.recipe_for`, and
`cyclicDependency` the cycle error of `Cookbook.missing_inputs`. -/
inductive PredicatorError where
  | invalidDefinition
  | invalidResult (v : PyValue)
  | recipeNotFound (nm : String)
  | cyclicDependency
deriving DecidableEq

instance {e a : Type} [DecidableEq e] [DecidableEq a] : DecidableEq (Except e a) := fun x y =>
  match x, y with
  | .ok v, .ok w => if h : v = w then .isTrue (by rw [h]) else .isFalse (by simp [h])
  | .error v, .error w => if h : v = w then .isTrue (by rw [h]) else .isFalse (by simp [h])
  | .ok _, .error _ => .isFalse (by simp)
  | .error _, .ok _ => .isFalse (by simp)

/-- A `Recipe` object: the wrapped callable (`self._func`) and the
name supplied at construction or by assignment (`self._supplied_name`). -/
structure Recipe where
  func : PyUnit
  suppliedName : Option String

/-- `Recipe.__init__`: asserts that `func` is callable and not a class,
then stores the callable and the (optional, keyword-only) name. -/
def Recipe.construct (func : PyUnit) (nm : Option String) : Except PredicatorError Recipe :=
  if !func.isCallable then
    .error .invalidDefinition
  else if func.isClass then
    .error .invalidDefinition
  else
    .ok ⟨func, nm⟩

/-- The `Recipe.requires` property:
tuple(argspec.args + argspec.kwonlyargs) for the full arg spec of the
wrapped callable. -/
def Recipe.requires (r : Recipe) : List String :=
  let argspec := getfullargspec r.func.sig
  argspec.args ++ argspec.kwonlyargs

/-- The `Recipe.name` property: the supplied name when it is not None,
else the `__name__` of the function when the callable is a function, else the
name of the class of the callable. -/
def Recipe.name (r : Recipe) : String :=
  match r.suppliedName with
  | some n => n
  | Option.none =>
      if r.func.isFunction then r.func.dunderName else r.func.clsDunderName

/-- The `Recipe.name` setter: stores the new name in
`self._supplied_name`. -/
def Recipe.setName (r : Recipe) (newName : String) : Recipe :=
  { r with suppliedName := some newName }

/-- `Recipe.__call__`: passes the arguments to the underlying callable
and returns its value unchecked. -/
def Recipe.call (r : Recipe) (args : List PyValue) : PyValue :=
  r.func.impl args

/-- A `Rule` is a `Recipe` subclass that only overrides `__call__`;
its data is the same. -/
abbrev Rule := Recipe

/-- `Rule.__call__`: forwards to `Recipe.__call__` and asserts that the
verdict is an instance of `bool`, returning it if so. -/
def Rule.call (r : Rule) (args : List PyValue) : Except PredicatorError Bool :=
  let verdict := Recipe.call r args
  match verdict with
  | .bool b => .ok b
  | v => .error (.invalidResult v)

/-- A `Cookbook`: an ordered list of rules and an ordered list of
recipes, both mutable by append. -/
structure Cookbook where
  rules : List Rule
  recipes : List Recipe

/-- The `Cookbook.required` property: the union of `rule.requires` over
every rule, as a set. -/
def Cookbook.required (cb : Cookbook) : Finset String :=
  cb.rules.foldr (fun r acc => r.requires.toFinset ∪ acc) ∅

/-- The loop of `Cookbook.recipe_for`: the first recipe in registration
order whose name equals the requested input name, or the ValueError. -/
def findRecipe : List Recipe → String → Except PredicatorError Recipe
  | [], n => .error (.recipeNotFound n)
  | r :: rest, n => if r.name = n then .ok r else findRecipe rest n

/-- `Cookbook.recipe_for`. -/
def Cookbook.recipe_for (cb : Cookbook) (input_name : String) : Except PredicatorError Recipe :=
  findRecipe cb.recipes input_name

/-- Modelled from the spec: the edge relation of the used-recipe graph
built by the missing `Cookbook._generate_used_recipes_graph`. A
non-primary input name `n` has an edge to each name required by the
first recipe named `n`; a primary input is exempt from recipe lookup,
and a name with no matching recipe terminates the branch. -/
def Cookbook.succList (cb : Cookbook) (P : List String) (n : String) : List String :=
  if n ∈ P then []
  else
    match cb.recipe_for n with
    | .ok r => r.requires
    | .error _ => []

/-- One dependency edge of the used-recipe graph, as a relation. -/
def Cookbook.recipeStep (cb : Cookbook) (P : List String) (n m : String) : Prop :=
  m ∈ cb.succList P n

instance (cb : Cookbook) (P : List String) (n m : String) :
    Decidable (cb.recipeStep P n m) :=
  inferInstanceAs (Decidable (m ∈ cb.succList P n))

/-- One round of graph expansion: a set of names together with every
name one dependency edge away from it. -/
def Cookbook.stepF (cb : Cookbook) (P : List String) (s : Finset String) : Finset String :=
  s ∪ s.biUnion (fun n => (cb.succList P n).toFinset)

/-- Iterated graph expansion. -/
def Cookbook.iterF (cb : Cookbook) (P : List String) : Nat → Finset String → Finset String
  | 0, s => s
  | k + 1, s => cb.stepF P (cb.iterF P k s)

/-- Every input name the resolver can ever visit: the names required by
some rule together with the names required by some recipe. -/
def Cookbook.allReqNames (cb : Cookbook) : Finset String :=
  cb.required ∪ cb.recipes.foldr (fun r acc => r.requires.toFinset ∪ acc) ∅

/-- The set of names reachable from a starting set along dependency
edges, computed by saturating the expansion. -/
def Cookbook.reachSet (cb : Cookbook) (P : List String) (s : Finset String) : Finset String :=
  cb.iterF P (cb.allReqNames.card + 1) s

/-- The root requirement names that resolution starts from: every name
required by a rule, minus the primary inputs. -/
def Cookbook.rootSet (cb : Cookbook) (P : List String) : Finset String :=
  cb.required \ P.toFinset

/-- The dependency successors of a name, as a set. -/
def Cookbook.succFinset (cb : Cookbook) (P : List String) (n : String) : Finset String :=
  (cb.succList P n).toFinset

/-- Modelled from the spec: the missing `Cookbook._get_next` and the
incomplete `Cookbook._ensure_no_recipe_cycles`, whose intended contract
the specification states — walk the used-recipe graph from every root
requirement and fail exactly when some walk revisits a recipe on its
current path, i.e. when a name reachable from the roots lies on a
dependency cycle. -/
def Cookbook.cycleFlag (cb : Cookbook) (P : List String) : Bool :=
  decide (∃ x ∈ cb.reachSet P (cb.rootSet P), x ∈ cb.reachSet P (cb.succFinset P x))

/-- The names of all registered recipes, as a set:
set(recipe.name for recipe in self.recipes). -/
def Cookbook.recipeNameSet (cb : Cookbook) : Finset String :=
  (cb.recipes.map Recipe.name).toFinset

/-- The required_for_recipes loop of `Cookbook.missing_inputs`: the
union of `recipe.requires` over every registered recipe whose name is in
`self.required`. -/
def Cookbook.required_for_recipes (cb : Cookbook) : Finset String :=
  cb.recipes.foldr
    (fun r acc => if r.name ∈ cb.required then r.requires.toFinset ∪ acc else acc) ∅

/-- `Cookbook.missing_inputs`: run the (spec-modelled) cycle check, then
return (self.required - set of recipe names) ∪ required_for_recipes,
exactly as the source computes it. -/
def Cookbook.missing_inputs (cb : Cookbook) (P : List String) :
    Except PredicatorError (Finset String) :=
  if cb.cycleFlag P then .error .cyclicDependency
  else .ok ((cb.required \ cb.recipeNameSet) ∪ cb.required_for_recipes)

/-- `Cookbook.missing_inputs` with the object state threaded through the
body: each Python statement of the method reads `self` and assigns only
to locals, so the cookbook component records the object state at exit,
on the error path as well as on the normal path. -/
def Cookbook.missing_inputs_run (cb : Cookbook) (P : List String) :
    Except PredicatorError (Finset String) × Cookbook :=
  let cb0 := cb
  if cb0.cycleFlag P then (.error .cyclicDependency, cb0)
  else (.ok ((cb0.required \ cb0.recipeNameSet) ∪ cb0.required_for_recipes), cb0)

/-- A name reachable from the root requirement set `R \ P` along the
dependency edges of the used-recipe graph. -/
def Cookbook.reachableFromRoots (cb : Cookbook) (P : List String) (x : String) : Prop :=
  ∃ a ∈ cb.rootSet P, Relation.ReflTransGen (cb.recipeStep P) a x

/-- A name lying on a dependency cycle of the used-recipe graph:
it reaches itself in at least one step. -/
def Cookbook.onCycle (cb : Cookbook) (P : List String) (x : String) : Prop :=
  Relation.TransGen (cb.recipeStep P) x x

/-- A rule wrapping a function whose positional parameters are the given
names, for building concrete cookbooks. -/
def mkRule (reqs : List String) : Rule :=
  ⟨.function "rule" (reqs.map Param.pos) (fun _ => .bool true), Option.none⟩

/-- A recipe of an explicit name whose wrapped function has the given
positional parameters, for building concrete cookbooks. -/
def mkRecipe (nm : String) (reqs : List String) : Recipe :=
  ⟨.function nm (reqs.map Param.pos) (fun _ => .none), some nm⟩

/-- A cookbook with one rule requiring the input a and no recipes; used
with the primary-input set containing a. -/
def primaryCookbook : Cookbook := ⟨[mkRule ["a"]], []⟩

/-- A cookbook with one rule requiring c and two recipes both named c,
the first requiring x and the later duplicate requiring y. -/
def duplicateCookbook : Cookbook :=
  ⟨[mkRule ["c"]], [mkRecipe "c" ["x"], mkRecipe "c" ["y"]]⟩

/-! Characterization of recipe lookup. -/

theorem findRecipe_ok_iff (l : List Recipe) (nm : String) (r : Recipe) :
    findRecipe l nm = .ok r ↔
      ∃ pre post, l = pre ++ r :: post ∧ r.name = nm ∧ ∀ r' ∈ pre, r'.name ≠ nm := by
  induction l with
  | nil =>
      simp only [findRecipe]
      constructor
      · intro h
        exact Except.noConfusion h
      · rintro ⟨pre, post, habs, -, -⟩
        cases pre <;> exact List.noConfusion habs
  | cons a rest ih =>
      by_cases h : a.name = nm
      · simp only [findRecipe, if_pos h]
        constructor
        · intro hok
          have har : a = r := by injection hok
          subst har
          exact ⟨[], rest, rfl, h, by simp⟩
        · rintro ⟨pre, post, heq, hname, hpre⟩
          cases pre with
          | nil =>
              have : a = r := by injection heq
              rw [this]
          | cons b pre' =>
              have hab : a = b := by injection heq
              exact absurd h (hab ▸ hpre b (by simp))
      · simp only [findRecipe, if_neg h, ih]
        constructor
        · rintro ⟨pre, post, heq, hname, hpre⟩
          refine ⟨a :: pre, post, by rw [heq, List.cons_append], hname, ?_⟩
          intro r' hr'
          rcases List.mem_cons.mp hr' with hr' | hr'
          · rw [hr']; exact h
          · exact hpre r' hr'
        · rintro ⟨pre, post, heq, hname, hpre⟩
          cases pre with
          | nil =>
              have : a = r := by injection heq
              exact absurd (this ▸ hname) h
          | cons b pre' =>
              have hab : a = b := by injection heq
              have htl : rest = pre' ++ r :: post := by injection heq
              exact ⟨pre', post, htl, hname, fun r' hr' => hpre r' (by simp [hr'])⟩

theorem findRecipe_err_iff (l : List Recipe) (nm : String) :
    findRecipe l nm = .error (.recipeNotFound nm) ↔ ∀ r ∈ l, r.name ≠ nm := by
  induction l with
  | nil => simp [findRecipe]
  | cons a rest ih =>
      by_cases h : a.name = nm
      · simp [findRecipe, h]
      · simp [findRecipe, h, ih]

theorem findRecipe_ok_mem {l : List Recipe} {nm : String} {r : Recipe}
    (h : findRecipe l nm = .ok r) : r ∈ l := by
  rcases (findRecipe_ok_iff l nm r).mp h with ⟨pre, post, heq, -, -⟩
  rw [heq]
  simp

/-- C5: recipe_for(name) returns the first recipe in registration order
whose name attribute equals the given name, and raises
RecipeNotFoundError exactly when no recipe in the list has that name. -/
theorem recipe_for_first_match (cb : Cookbook) (nm : String) :
    (∀ r : Recipe, cb.recipe_for nm = .ok r ↔
        ∃ pre post, cb.recipes = pre ++ r :: post ∧ r.name = nm ∧
          ∀ r' ∈ pre, r'.name ≠ nm) ∧
    (cb.recipe_for nm = .error (.recipeNotFound nm) ↔
        ∀ r ∈ cb.recipes, r.name ≠ nm) :=
  ⟨fun r => findRecipe_ok_iff cb.recipes nm r, findRecipe_err_iff cb.recipes nm⟩

/-- C6: requires is the ordered positional / positional-or-keyword
parameter names followed by the ordered keyword-only parameter names,
for function units and callable-instance units alike, and variadic
catch-alls contribute no entries wherever they sit in the signature. -/
theorem requires_ordered_param_names (fname : String) (impl : List PyValue → PyValue)
    (nm : Option String) (sig l rest : List Param) :
    (Recipe.mk (.function fname sig impl) nm).requires = posNames sig ++ kwonlyNames sig ∧
    (Recipe.mk (.callableInstance fname sig impl) nm).requires
      = posNames sig ++ kwonlyNames sig ∧
    (Recipe.mk (.function fname (l ++ Param.varArgs :: rest) impl) nm).requires
      = (Recipe.mk (.function fname (l ++ rest) impl) nm).requires ∧
    (Recipe.mk (.function fname (l ++ Param.varKw :: rest) impl) nm).requires
      = (Recipe.mk (.function fname (l ++ rest) impl) nm).requires := by
  refine ⟨rfl, rfl, ?_, ?_⟩ <;>
    simp [Recipe.requires, getfullargspec, PyUnit.sig, posNames, kwonlyNames,
      List.filterMap_append]

/-- C7: invoking a Rule passes the arguments to the wrapped unit; the
boolean it returns is returned exactly, and a non-boolean result — even
a truthy one — raises InvalidResultError carrying that result. -/
theorem rule_call_strictly_boolean (r : Rule) (args : List PyValue) :
    Recipe.call r args = r.func.impl args ∧
    (∀ b : Bool, Rule.call r args = .ok b ↔ Recipe.call r args = .bool b) ∧
    ((∃ e, Rule.call r args = .error e) ↔ ∀ b : Bool, Recipe.call r args ≠ .bool b) ∧
    (∀ v : PyValue, Rule.call r args = .error (.invalidResult v) ↔
        Recipe.call r args = v ∧ ∀ b : Bool, v ≠ .bool b) := by
  refine ⟨rfl, ?_, ?_, ?_⟩ <;>
    cases hv : Recipe.call r args <;>
      simp [Rule.call, hv]

/-- C8: constructing a Recipe (or Rule) raises InvalidDefinitionError
exactly when the wrapped unit is not callable or is a class, and for any
non-class callable it succeeds, storing the unit and the given name. -/
theorem construct_rejects_non_callables (u : PyUnit) (nm : Option String) :
    ((∃ e, Recipe.construct u nm = .error e) ↔
        (u.isCallable = false ∨ u.isClass = true)) ∧
    (Recipe.construct u nm = .ok ⟨u, nm⟩ ↔
        (u.isCallable = true ∧ u.isClass = false)) := by
  cases u <;>
    simp [Recipe.construct, PyUnit.isCallable, PyUnit.isClass]

/-- C10: assigning a new name makes every later read of the name
attribute return exactly the assigned value, whatever name the recipe
had before (explicit or derived), and recipe_for then matches the recipe
under the updated name. -/
theorem name_settable_and_looked_up (r : Recipe) (newName : String)
    (rules rest : List Recipe) :
    (r.setName newName).name = newName ∧
    (Cookbook.mk rules ((r.setName newName) :: rest)).recipe_for newName
      = .ok (r.setName newName) := by
  constructor
  · rfl
  · simp [Cookbook.recipe_for, findRecipe, Recipe.setName, Recipe.name]

/-- C9: missing_inputs is a pure read of the cookbook state: with the
object state threaded through the body, the rules and recipes lists at
exit equal those at entry, on the error path as well as on the normal
path, and the returned value is the one missing_inputs computes. -/
theorem missing_inputs_frame (cb : Cookbook) (P : List String) :
    (cb.missing_inputs_run P).2 = cb ∧
    (cb.missing_inputs_run P).2.rules = cb.rules ∧
    (cb.missing_inputs_run P).2.recipes = cb.recipes ∧
    (cb.missing_inputs_run P).1 = cb.missing_inputs P := by
  unfold Cookbook.missing_inputs_run Cookbook.missing_inputs
  by_cases h : cb.cycleFlag P <;> simp [h]

/-- C3 at the failing input: the spec says a primary input never appears
in the missing-input set, but with one rule requiring the input a, no
recipes, and a supplied as a primary input, the source computation
returns the set containing a — primary_inputs is never subtracted from
the returned set, although the docstring of missing_inputs promises
"These inputs will be removed from the returned set". -/
theorem primary_input_not_removed :
    primaryCookbook.missing_inputs ["a"] = .ok {"a"} := by decide

/-- C4 at the failing input: with one rule requiring c and two recipes
both named c, the requirements-gathering loop of missing_inputs adds the
requirements of every recipe whose name is required, so the later
requirement y of the later duplicate reaches the result alongside x, although the
docstring says only the first recipe for each input is considered. -/
theorem duplicate_recipe_requirements_leak :
    duplicateCookbook.missing_inputs [] = .ok {"x", "y"} := by decide

/-! Correctness of the saturation-based reachability computation that
the spec-modelled cycle check runs on. -/

theorem subset_stepF (cb : Cookbook) (P : List String) (s : Finset String) :
    s ⊆ cb.stepF P s :=
  Finset.subset_union_left

theorem subset_iterF (cb : Cookbook) (P : List String) (k : Nat) (s : Finset String) :
    s ⊆ cb.iterF P k s := by
  induction k with
  | zero => exact Finset.Subset.refl s
  | succ k ih =>
      exact ih.trans (subset_stepF cb P (cb.iterF P k s))

theorem mem_iterF_sound (cb : Cookbook) (P : List String) (k : Nat) (s : Finset String) :
    ∀ x ∈ cb.iterF P k s, ∃ a ∈ s, Relation.ReflTransGen (cb.recipeStep P) a x := by
  induction k with
  | zero => exact fun x hx => ⟨x, hx, Relation.ReflTransGen.refl⟩
  | succ k ih =>
      intro x hx
      rcases Finset.mem_union.mp hx with hx' | hx'
      · exact ih x hx'
      · rcases Finset.mem_biUnion.mp hx' with ⟨n, hn, hmem⟩
        rcases ih n hn with ⟨a, ha, hr⟩
        exact ⟨a, ha, hr.tail (List.mem_toFinset.mp hmem)⟩

theorem mem_recipesReqFold {l : List Recipe} {r : Recipe} (hr : r ∈ l) :
    r.requires.toFinset ⊆ l.foldr (fun q acc => q.requires.toFinset ∪ acc) ∅ := by
  induction l with
  | nil => cases hr
  | cons a rest ih =>
      rcases List.mem_cons.mp hr with h | h
      · rw [h]
        exact Finset.subset_union_left
      · exact (ih h).trans Finset.subset_union_right

theorem succList_subset_allReq (cb : Cookbook) (P : List String) (n : String) :
    ∀ m ∈ cb.succList P n, m ∈ cb.allReqNames := by
  intro m hm
  by_cases hP : n ∈ P
  · simp [Cookbook.succList, hP] at hm
  · cases h : cb.recipe_for n with
    | ok r =>
        unfold Cookbook.succList at hm
        rw [if_neg hP, h] at hm
        change m ∈ r.requires at hm
        have hrl : r ∈ cb.recipes := findRecipe_ok_mem h
        exact Finset.mem_union_right _ (mem_recipesReqFold hrl (List.mem_toFinset.mpr hm))
    | error e =>
        unfold Cookbook.succList at hm
        rw [if_neg hP, h] at hm
        change m ∈ ([] : List String) at hm
        cases hm

theorem stepF_subset_allReq (cb : Cookbook) (P : List String) {s : Finset String}
    (hs : s ⊆ cb.allReqNames) : cb.stepF P s ⊆ cb.allReqNames := by
  unfold Cookbook.stepF
  apply Finset.union_subset hs
  intro x hx
  rcases Finset.mem_biUnion.mp hx with ⟨n, hn, hxn⟩
  exact succList_subset_allReq cb P n x (List.mem_toFinset.mp hxn)

theorem iterF_subset_allReq (cb : Cookbook) (P : List String) (k : Nat) {s : Finset String}
    (hs : s ⊆ cb.allReqNames) : cb.iterF P k s ⊆ cb.allReqNames := by
  induction k with
  | zero => exact hs
  | succ k ih => exact stepF_subset_allReq cb P ih

theorem iterF_growth (cb : Cookbook) (P : List String) (s : Finset String) (k : Nat) :
    cb.stepF P (cb.iterF P k s) = cb.iterF P k s ∨ s.card + k ≤ (cb.iterF P k s).card := by
  induction k with
  | zero => right; simp [Cookbook.iterF]
  | succ k ih =>
      have hstep : cb.iterF P (k + 1) s = cb.stepF P (cb.iterF P k s) := rfl
      rcases ih with hfix | hcard
      · left; rw [hstep, hfix, hfix]
      · by_cases h : cb.stepF P (cb.iterF P k s) = cb.iterF P k s
        · left; rw [hstep, h, h]
        · right
          have hss : cb.iterF P k s ⊂ cb.stepF P (cb.iterF P k s) :=
            Finset.ssubset_iff_subset_ne.mpr ⟨subset_stepF cb P _, fun e => h e.symm⟩
          have hlt := Finset.card_lt_card hss
          rw [hstep]
          omega

theorem stepF_reachSet (cb : Cookbook) (P : List String) {s : Finset String}
    (hs : s ⊆ cb.allReqNames) : cb.stepF P (cb.reachSet P s) = cb.reachSet P s := by
  unfold Cookbook.reachSet
  rcases iterF_growth cb P s (cb.allReqNames.card + 1) with hfix | hcard
  · exact hfix
  · exfalso
    have hle : (cb.iterF P (cb.allReqNames.card + 1) s).card ≤ cb.allReqNames.card :=
      Finset.card_le_card (iterF_subset_allReq cb P _ hs)
    omega

theorem mem_reachSet_complete (cb : Cookbook) (P : List String) {s : Finset String}
    (hs : s ⊆ cb.allReqNames) {a x : String} (ha : a ∈ s)
    (hr : Relation.ReflTransGen (cb.recipeStep P) a x) : x ∈ cb.reachSet P s := by
  induction hr with
  | refl => exact subset_iterF cb P _ s ha
  | @tail b c hab hbc ih =>
      have hc : c ∈ cb.stepF P (cb.reachSet P s) :=
        Finset.mem_union_right _ (Finset.mem_biUnion.mpr ⟨b, ih, List.mem_toFinset.mpr hbc⟩)
      rw [stepF_reachSet cb P hs] at hc
      exact hc

theorem mem_reachSet_iff (cb : Cookbook) (P : List String) {s : Finset String}
    (hs : s ⊆ cb.allReqNames) (x : String) :
    x ∈ cb.reachSet P s ↔ ∃ a ∈ s, Relation.ReflTransGen (cb.recipeStep P) a x :=
  ⟨fun h => mem_iterF_sound cb P _ s x h,
   fun ⟨_, ha, hr⟩ => mem_reachSet_complete cb P hs ha hr⟩

theorem rootSet_subset_allReq (cb : Cookbook) (P : List String) :
    cb.rootSet P ⊆ cb.allReqNames := by
  unfold Cookbook.rootSet Cookbook.allReqNames
  exact Finset.sdiff_subset.trans Finset.subset_union_left

theorem succFinset_subset_allReq (cb : Cookbook) (P : List String) (n : String) :
    cb.succFinset P n ⊆ cb.allReqNames := by
  intro m hm
  exact succList_subset_allReq cb P n m (List.mem_toFinset.mp hm)

/-- C2: missing_inputs raises exactly the cycle error, and raises it if
and only if some name reachable from the root requirements R \ P lies
on a dependency cycle of the used-recipe graph; in particular a cycle
among recipes not reachable from any root never makes it raise. -/
theorem missing_inputs_cycle_iff (cb : Cookbook) (P : List String) :
    ((∃ e, cb.missing_inputs P = .error e) ↔
        cb.missing_inputs P = .error .cyclicDependency) ∧
    (cb.missing_inputs P = .error .cyclicDependency ↔
        ∃ x, cb.reachableFromRoots P x ∧ cb.onCycle P x) := by
  have hflag : cb.cycleFlag P = true ↔
      ∃ x, cb.reachableFromRoots P x ∧ cb.onCycle P x := by
    unfold Cookbook.cycleFlag
    rw [decide_eq_true_eq]
    constructor
    · rintro ⟨x, hx, hcyc⟩
      refine ⟨x, (mem_reachSet_iff cb P (rootSet_subset_allReq cb P) x).mp hx, ?_⟩
      rcases (mem_reachSet_iff cb P (succFinset_subset_allReq cb P x) x).mp hcyc
        with ⟨y, hy, hr⟩
      exact Relation.TransGen.head' (List.mem_toFinset.mp hy) hr
    · rintro ⟨x, hroot, hcyc⟩
      refine ⟨x, (mem_reachSet_iff cb P (rootSet_subset_allReq cb P) x).mpr hroot, ?_⟩
      rcases Relation.TransGen.head'_iff.mp hcyc with ⟨y, hxy, hr⟩
      exact (mem_reachSet_iff cb P (succFinset_subset_allReq cb P x) x).mpr
        ⟨y, List.mem_toFinset.mpr hxy, hr⟩
  constructor
  · constructor
    · rintro ⟨e, he⟩
      unfold Cookbook.missing_inputs at he ⊢
      by_cases h : cb.cycleFlag P
      · rw [if_pos h]
      · rw [if_neg h] at he
        exact Except.noConfusion he
    · intro h
      exact ⟨_, h⟩
  · constructor
    · intro h
      apply hflag.mp
      by_cases hc : cb.cycleFlag P
      · exact hc
      · unfold Cookbook.missing_inputs at h
        rw [if_neg hc] at h
        exact Except.noConfusion h
    · intro h
      unfold Cookbook.missing_inputs
      rw [if_pos (hflag.mpr h)]

/-! With no recipes registered the used-recipe graph has no edges. -/

theorem succList_no_recipes (rules : List Rule) (P : List String) (n : String) :
    (Cookbook.mk rules []).succList P n = [] := by
  simp [Cookbook.succList, Cookbook.recipe_for, findRecipe]

theorem stepF_no_recipes (rules : List Rule) (P : List String) (s : Finset String) :
    (Cookbook.mk rules []).stepF P s = s := by
  have hb : (s.biUnion fun n => ((Cookbook.mk rules []).succList P n).toFinset) = ∅ := by
    apply Finset.eq_empty_of_forall_not_mem
    intro x hx
    rcases Finset.mem_biUnion.mp hx with ⟨n, hn, hxn⟩
    rw [succList_no_recipes] at hxn
    simp at hxn
  unfold Cookbook.stepF
  rw [hb, Finset.union_empty]

theorem iterF_no_recipes (rules : List Rule) (P : List String) (k : Nat) (s : Finset String) :
    (Cookbook.mk rules []).iterF P k s = s := by
  induction k with
  | zero => rfl
  | succ k ih =>
      show (Cookbook.mk rules []).stepF P ((Cookbook.mk rules []).iterF P k s) = s
      rw [ih, stepF_no_recipes]

theorem cycleFlag_no_recipes (rules : List Rule) (P : List String) :
    (Cookbook.mk rules []).cycleFlag P = false := by
  unfold Cookbook.cycleFlag
  apply decide_eq_false
  rintro ⟨x, hx, hcyc⟩
  unfold Cookbook.reachSet at hcyc
  rw [iterF_no_recipes] at hcyc
  unfold Cookbook.succFinset at hcyc
  rw [succList_no_recipes] at hcyc
  simp at hcyc

/-- C1: on a cookbook with no recipes, missing_inputs with no primary
inputs returns exactly the union of the requirements of every rule, for any
list of rules; with no rules either, it returns the empty set. -/
theorem no_recipes_missing_inputs (rules : List Rule) :
    (Cookbook.mk rules []).missing_inputs []
      = .ok (rules.foldr (fun r acc => r.requires.toFinset ∪ acc) ∅) ∧
    (Cookbook.mk [] []).missing_inputs [] = .ok ∅ := by
  constructor
  · unfold Cookbook.missing_inputs
    rw [cycleFlag_no_recipes]
    simp [Cookbook.recipeNameSet, Cookbook.required_for_recipes, Cookbook.required]
  · decide

end Predicator
